import Mathlib

/-!
Verification of the Mirletis KEM core (`src/lib.rs`).

The Rust source is shallowly embedded: machine integers become `Nat`
bit patterns reduced modulo `2^32` (for `i32`/`u32` values) or modulo
`2^16`/`2^8` where the source casts to `i16`/`u8`; byte arrays become
`List Nat`; flat coefficient vectors (`Vec<i16>`, `[u8; K*N]`) become
functions from the flat index; the external SHAKE-256 stream and the
SHA3-256 KDF are abstract function parameters (they are external crate
dependencies, not part of the source under verification).
-/

namespace Mirletis

/- Constants from section [1] of the source. -/

def N : Nat := 256
def K : Nat := 5
def Q_MASK : Nat := 8191
def SHIFT : Nat := 5
def SEED_LEN : Nat := 32
def SHARED_LEN : Nat := 32

def DOM_MATRIX : Nat := 0
def DOM_SECRET : Nat := 1
def DOM_HASH : Nat := 2

/- Branchless primitives from the `ct` module, on 32-bit two's-complement
bit patterns represented as naturals below `2^32`. -/

/-- Two's-complement 32-bit bit pattern of an integer (the value of a Rust
`i32`, viewed through its unsigned pattern). -/
def wrap32 (x : Int) : Nat := (x % (4294967296 : Int)).toNat

/-- Rust `i32::wrapping_add` on bit patterns. -/
def add32 (a b : Nat) : Nat := (a + b) % 4294967296

/-- Rust `i32::wrapping_mul` on bit patterns. -/
def mul32 (a b : Nat) : Nat := (a * b) % 4294967296

/-- Rust `i32::wrapping_sub` on bit patterns. -/
def sub32 (a b : Nat) : Nat := (a + 4294967296 - b % 4294967296) % 4294967296

/-- Source `ct::sign32`: arithmetic right shift of an `i32` by 31, as a pattern. -/
def sign32 (x : Nat) : Nat :=
  if x % 4294967296 < 2147483648 then 0 else 4294967295

/-- Source `ct::abs32`: `(x ^ m).wrapping_sub(m)` with `m = sign32 x`. -/
def abs32 (x : Nat) : Nat := sub32 (x ^^^ sign32 x) (sign32 x)

/-- Source `ct::min32`: `b.wrapping_add(d & sign32 d)` with `d = a.wrapping_sub(b)`. -/
def min32 (a b : Nat) : Nat := add32 b (sub32 a b &&& sign32 (sub32 a b))

/-- Source `ct::lt32`: `(a.wrapping_sub(b) as u32) >> 31`. -/
def lt32 (a b : Nat) : Nat := sub32 a b >>> 31

/-- Rust `u32::wrapping_neg` on bit patterns. -/
def neg32 (x : Nat) : Nat := (4294967296 - x % 4294967296) % 4294967296

/-- Source `ct::eq32`: `1 ^ (((a ^ b) | (a ^ b).wrapping_neg()) >> 31)`. -/
def eq32 (a b : Nat) : Nat := 1 ^^^ (((a ^^^ b) ||| neg32 (a ^^^ b)) >>> 31)

/-- Source `ct::sel_u8`: branchless select on `u8` patterns; the mask is
`0u8.wrapping_sub(cond as u8)` and `!mask` is xor with `0xFF`. -/
def sel_u8 (a b : Nat) (cond : Nat) : Nat :=
  (a &&& (256 - cond % 256) % 256) ||| (b &&& ((256 - cond % 256) % 256 ^^^ 255))

/-- Source `ct::sel_i16`: branchless select on `i16` patterns. -/
def sel_i16 (a b : Nat) (cond : Nat) : Nat :=
  (a &&& (65536 - cond % 65536) % 65536) |||
    (b &&& ((65536 - cond % 65536) % 65536 ^^^ 65535))

/-- Signed value of an `i16` bit pattern. -/
def i16ToInt (p : Nat) : Int :=
  if p % 65536 < 32768 then ((p % 65536 : Nat) : Int)
  else ((p % 65536 : Nat) : Int) - 65536

/-- Source `ct::ternary`: `val = (r & 3) as i32; base = val - 1;
sel_i16(0, base as i16, eq32(val, 3))`, returned as the signed `i16` value. -/
def ternary (r : Nat) : Int :=
  i16ToInt (sel_i16 0 (sub32 (r &&& 3) 1 % 65536) (eq32 (r &&& 3) 3))

/-- Source `ct::safe_zone`: distance-to-anchor test via branchless abs/min/lt.
The source subtractions `val - 32` etc. cannot overflow for a byte input,
so they coincide with the wrapping subtraction used here. -/
def safe_zone (v : Nat) : Nat :=
  lt32 (min32 (min32 (abs32 (sub32 v 32)) (abs32 (sub32 v 96)))
              (min32 (abs32 (sub32 v 160)) (abs32 (sub32 v 224)))) 12

/-- Source `ct::bit_set`: `arr[i >> 3] |= v << (i & 7)`. -/
def bit_set (arr : List Nat) (i : Nat) (v : Nat) : List Nat :=
  arr.set (i >>> 3) (arr.getD (i >>> 3) 0 ||| v <<< (i &&& 7))

/-- Source `ct::bit_get`: `(arr[i >> 3] >> (i & 7)) & 1`. -/
def bit_get (arr : List Nat) (i : Nat) : Nat :=
  arr.getD (i >>> 3) 0 >>> (i &&& 7) &&& 1

/-- XOR-difference fold of `ct::eq_slice`: `diff |= a[i] ^ b[i]` over all
positions (the source loop runs only when the lengths already agree). -/
def xorFold (a b : List Nat) : Nat :=
  (List.zipWith (fun x y => x ^^^ y) a b).foldl (fun d t => d ||| t) 0

/-- Source `ct::eq_slice`: length check, then the XOR fold compared with zero. -/
def eq_slice (a b : List Nat) : Bool :=
  if a.length ≠ b.length then false else xorFold a b == 0

/- Deterministic expanders from section [6] of the source. The SHAKE-256
stream is an abstract parameter `xof domain data index`, one byte per index. -/

/-- Source `gen_matrix_a`: coefficient `i` is the little-endian 16-bit word at
bytes `2i, 2i+1` of the `DOM_MATRIX` stream, masked to 13 bits. -/
def gen_matrix_a (xof : Nat → List Nat → Nat → Nat) (seed : List Nat) : Nat → Int :=
  fun i => (((xof DOM_MATRIX seed (2 * i) + 256 * xof DOM_MATRIX seed (2 * i + 1))
      &&& Q_MASK : Nat) : Int)

/-- Source `gen_secret_from_seed`: coefficient `i` is `ternary` of byte `i` of the
`DOM_SECRET` stream. -/
def gen_secret_from_seed (xof : Nat → List Nat → Nat → Nat) (seed : List Nat) :
    Nat → Int :=
  fun i => ternary (xof DOM_SECRET seed i)

/- Spec-side definitions used to state claims. -/

/-- Distance from a byte value to an anchor point, as stated in the spec. -/
def anchorDist (v a : Nat) : Nat := ((v : Int) - (a : Int)).natAbs

/-- Minimum distance from `v` to the four anchors `{32, 96, 160, 224}`. -/
def minAnchorDist (v : Nat) : Nat :=
  min (min (anchorDist v 32) (anchorDist v 96))
      (min (anchorDist v 160) (anchorDist v 224))

/- Helper lemmas. -/

theorem ternary_and_three (r : Nat) : ternary r = ternary (r &&& 3) := by
  unfold ternary
  rw [Nat.and_assoc, Nat.and_self]

theorem ternary_mem (r : Nat) : ternary r ∈ ({-1, 0, 1} : Set Int) := by
  have h3 : r &&& 3 ≤ 3 := Nat.and_le_right
  have h : r &&& 3 = 0 ∨ r &&& 3 = 1 ∨ r &&& 3 = 2 ∨ r &&& 3 = 3 := by omega
  simp only [Set.mem_insert_iff, Set.mem_singleton_iff]
  rw [ternary_and_three]
  rcases h with h | h | h | h <;> rw [h] <;> decide

set_option maxRecDepth 4096 in
/-- C2: the branchless `safe_zone` agrees with the `< 12` minimum-distance
rule on every byte, and takes the stated values at the anchors and at the
four midpoints. -/
theorem spec_C2 :
    (∀ v, v < 256 → safe_zone v = if minAnchorDist v < 12 then 1 else 0) ∧
    safe_zone 32 = 1 ∧ safe_zone 96 = 1 ∧ safe_zone 160 = 1 ∧ safe_zone 224 = 1 ∧
    safe_zone 0 = 0 ∧ safe_zone 64 = 0 ∧ safe_zone 128 = 0 ∧ safe_zone 192 = 0 := by
  refine ⟨?_, by decide, by decide, by decide, by decide,
    by decide, by decide, by decide, by decide⟩
  decide

theorem spec_C2_witness :
    (33 : Nat) < 256 ∧ safe_zone 33 = if minAnchorDist 33 < 12 then 1 else 0 :=
  ⟨by decide, spec_C2.1 33 (by decide)⟩

/-- C5: `ternary` depends only on the bottom two bits, maps `{0,1,2,3}` to
`{-1,0,1,0}`, and every coefficient produced by `gen_secret_from_seed` is
in `{-1,0,1}`. -/
theorem spec_C5 :
    (∀ b, b < 256 → ternary b = ternary (b &&& 3)) ∧
    ternary 0 = -1 ∧ ternary 1 = 0 ∧ ternary 2 = 1 ∧ ternary 3 = 0 ∧
    (∀ (xof : Nat → List Nat → Nat → Nat) (seed : List Nat) (i : Nat),
      gen_secret_from_seed xof seed i ∈ ({-1, 0, 1} : Set Int)) := by
  refine ⟨fun b _ => ternary_and_three b, by decide, by decide, by decide, by decide,
    fun xof seed i => ternary_mem (xof DOM_SECRET seed i)⟩

theorem spec_C5_witness :
    (6 : Nat) < 256 ∧ ternary 6 = ternary (6 &&& 3) :=
  ⟨by decide, spec_C5.1 6 (by decide)⟩

/- Helper lemmas for `eq_slice`. -/

theorem or_eq_zero {a b : Nat} : a ||| b = 0 ↔ a = 0 ∧ b = 0 := by
  constructor
  · intro h
    constructor <;>
      · apply Nat.eq_of_testBit_eq
        intro i
        have hb := congrArg (fun x => Nat.testBit x i) h
        simp only [Nat.testBit_or, Nat.zero_testBit, Bool.or_eq_false_iff] at hb
        simp [hb.1, hb.2]
  · rintro ⟨rfl, rfl⟩
    rfl

theorem foldl_or_eq_zero (l : List Nat) :
    ∀ d, l.foldl (fun x y => x ||| y) d = 0 ↔ d = 0 ∧ ∀ x ∈ l, x = 0 := by
  induction l with
  | nil => simp
  | cons a l ih =>
    intro d
    simp only [List.foldl_cons, ih, or_eq_zero, List.mem_cons]
    constructor
    · rintro ⟨⟨hd, ha⟩, hall⟩
      exact ⟨hd, fun x hx => hx.elim (fun h => h ▸ ha) (hall x)⟩
    · rintro ⟨hd, hall⟩
      exact ⟨⟨hd, hall a (Or.inl rfl)⟩, fun x hx => hall x (Or.inr hx)⟩

theorem xorFold_eq_zero :
    ∀ (a b : List Nat), a.length = b.length → (xorFold a b = 0 ↔ a = b) := by
  intro a
  induction a with
  | nil =>
    intro b hb
    cases b with
    | nil => simp [xorFold]
    | cons y ys => simp at hb
  | cons x xs ih =>
    intro b hb
    cases b with
    | nil => simp at hb
    | cons y ys =>
      simp only [List.length_cons, Nat.succ_inj] at hb
      have step : xorFold (x :: xs) (y :: ys) = 0 ↔ x = y ∧ xorFold xs ys = 0 := by
        unfold xorFold
        simp only [List.zipWith_cons_cons, List.foldl_cons, foldl_or_eq_zero,
          Nat.zero_or, Nat.xor_eq_zero]
        tauto
      rw [step, ih ys hb]
      constructor
      · rintro ⟨rfl, rfl⟩; rfl
      · intro h
        injection h with h1 h2
        exact ⟨h1, h2⟩

/-- C10: `eq_slice` is true exactly when the lengths agree and the XOR fold
is zero, equivalently exactly when the two byte slices are equal (so any
single-byte difference at any position makes it false). -/
theorem spec_C10 (a b : List Nat) :
    (eq_slice a b = true ↔ a.length = b.length ∧ xorFold a b = 0) ∧
    (eq_slice a b = true ↔ a = b) := by
  have hchar : eq_slice a b = true ↔ a.length = b.length ∧ xorFold a b = 0 := by
    unfold eq_slice
    by_cases h : a.length = b.length <;> simp [h]
  refine ⟨hchar, hchar.trans ?_⟩
  constructor
  · rintro ⟨hl, hz⟩
    exact (xorFold_eq_zero a b hl).mp hz
  · rintro rfl
    exact ⟨rfl, (xorFold_eq_zero a a rfl).mpr rfl⟩

/- Wrapping 32-bit arithmetic on patterns versus exact integer arithmetic. -/

theorem wrap32_cast (x : Int) : ((wrap32 x : Nat) : Int) = x % 4294967296 := by
  unfold wrap32
  exact Int.toNat_of_nonneg (Int.emod_nonneg x (by decide))

theorem add32_wrap (x y : Int) : add32 (wrap32 x) (wrap32 y) = wrap32 (x + y) := by
  have h : ((add32 (wrap32 x) (wrap32 y) : Nat) : Int) = ((wrap32 (x + y) : Nat) : Int) := by
    unfold add32
    push_cast [wrap32_cast]
    conv_rhs => rw [Int.add_emod]
  exact_mod_cast h

theorem mul32_wrap (x y : Int) : mul32 (wrap32 x) (wrap32 y) = wrap32 (x * y) := by
  have h : ((mul32 (wrap32 x) (wrap32 y) : Nat) : Int) = ((wrap32 (x * y) : Nat) : Int) := by
    unfold mul32
    push_cast [wrap32_cast]
    conv_rhs => rw [Int.mul_emod]
  exact_mod_cast h

/-- Accumulator of the inner `while l < K` loops: wrapping sum of the first
`n` terms. -/
def accW32 (f : Nat → Nat) : Nat → Nat
  | 0 => 0
  | l + 1 => add32 (accW32 f l) (f l)

theorem accW32_wrap (F G : Nat → Int) (n : Nat) :
    accW32 (fun l => mul32 (wrap32 (F l)) (wrap32 (G l))) n
      = wrap32 (∑ l ∈ Finset.range n, F l * G l) := by
  induction n with
  | zero => simp [accW32, wrap32]
  | succ n ih =>
    rw [accW32, ih, mul32_wrap, add32_wrap, Finset.sum_range_succ]

/- Linear core (section 4.D): the four bilinear maps, with the exact flat
index expressions of the source loops. -/

/-- Byte `(i, j)` of `b` as computed by the `keygen` loop:
`acc += A[i*K*N + l*N + j] * s[l*N + j]` wrapping, then `(acc & Q_MASK) >> SHIFT`. -/
def keygenB (A s : Nat → Int) (i j : Nat) : Nat :=
  (accW32 (fun l => mul32 (wrap32 (A (i * K * N + l * N + j))) (wrap32 (s (l * N + j)))) K
    &&& Q_MASK) >>> SHIFT

/-- Byte `(i, j)` of `u` as computed by the `encaps` loop: transposed first
index `A[l*K*N + i*N + j]`. -/
def encapsU (A r : Nat → Int) (i j : Nat) : Nat :=
  (accW32 (fun l => mul32 (wrap32 (A (l * K * N + i * N + j))) (wrap32 (r (l * N + j)))) K
    &&& Q_MASK) >>> SHIFT

/-- Byte `j` of `v` in `encaps`: `acc += b[l*N+j] * r[l*N+j]` wrapping,
then `acc & 0xFF`. -/
def encapsV (b : Nat → Nat) (r : Nat → Int) (j : Nat) : Nat :=
  accW32 (fun l => mul32 (wrap32 ((b (l * N + j) : Int))) (wrap32 (r (l * N + j)))) K
    &&& 255

/-- Byte `j` of `v_prime` in `decaps`: `acc += u[l*N+j] * s[l*N+j]` wrapping,
then `acc & 0xFF`. -/
def decapsV (u : Nat → Nat) (s : Nat → Int) (j : Nat) : Nat :=
  accW32 (fun l => mul32 (wrap32 ((u (l * N + j) : Int))) (wrap32 (s (l * N + j)))) K
    &&& 255

/-- The formula claimed by the spec for `b`: the wrapped 32-bit value of the
exact sum, masked and shifted. -/
def keygenBSpec (A s : Nat → Int) (i j : Nat) : Nat :=
  (wrap32 (∑ l ∈ Finset.range K, A (i * K * N + l * N + j) * s (l * N + j))
    &&& Q_MASK) >>> SHIFT

/-- The formula claimed by the spec for `u` (transposed first index). -/
def encapsUSpec (A r : Nat → Int) (i j : Nat) : Nat :=
  (wrap32 (∑ l ∈ Finset.range K, A (l * K * N + i * N + j) * r (l * N + j))
    &&& Q_MASK) >>> SHIFT

theorem keygenB_spec_eq (A s : Nat → Int) (i j : Nat) :
    keygenB A s i j = keygenBSpec A s i j := by
  unfold keygenB keygenBSpec
  rw [accW32_wrap]

theorem encapsU_spec_eq (A r : Nat → Int) (i j : Nat) :
    encapsU A r i j = encapsUSpec A r i j := by
  unfold encapsU encapsUSpec
  rw [accW32_wrap]

/- Data structures and the three KEM operations (sections [2], [7], [8], [9]). -/

/-- Struct `MirPubkey`: seed bytes and the compressed vector `b` (flat index). -/
structure MirPubkey where
  seed : List Nat
  b : Nat → Nat

/-- Struct `MirSecretVault`: owned secret vector `s`, exposed only through `access`. -/
structure MirSecretVault where
  secret_s : Nat → Int

/-- Method `MirSecretVault::access`: scoped closure-based access to the secret. -/
def MirSecretVault.access {R : Type _} (vault : MirSecretVault)
    (f : (Nat → Int) → R) : R :=
  f vault.secret_s

/-- Struct `MirCiphertext`: vector `u` (flat index), the `N`-bit safe-zone mask as
`N/8` bytes, and the 16-bit count `cnt`. -/
structure MirCiphertext where
  u : Nat → Nat
  mask : List Nat
  cnt : Nat

/-- Source `keygen`, with the OS master seed (64 bytes) and the SHAKE stream as
explicit parameters. -/
def keygen (xof : Nat → List Nat → Nat → Nat) (master_seed : List Nat) :
    MirPubkey × MirSecretVault :=
  let seed_pk := master_seed.take SEED_LEN
  let s := gen_secret_from_seed xof (master_seed.drop SEED_LEN)
  let A := gen_matrix_a xof seed_pk
  ({ seed := seed_pk, b := fun t => keygenB A s (t / N) (t % N) },
   { secret_s := s })

/-- The safe-zone selection loop of `encaps` after `idx` iterations:
state is `(mask, buf, widx)`. -/
def encapsLoopT (v : Nat → Nat) : Nat → List Nat × List Nat × Nat
  | 0 => (List.replicate (N / 8) 0, List.replicate N 0, 0)
  | idx + 1 =>
    let st := encapsLoopT v idx
    (bit_set st.1 idx (safe_zone (v idx)),
     st.2.1.set st.2.2 (sel_u8 (v idx >>> 6 &&& 1) (st.2.1.getD st.2.2 0) (safe_zone (v idx))),
     st.2.2 + safe_zone (v idx))

/-- Source `encaps`, with the SHAKE stream, the SHA3-256 KDF (applied to the
domain-tag-prefixed scratch prefix) and the ephemeral seed as parameters. -/
def encaps (xof : Nat → List Nat → Nat → Nat) (hash : List Nat → List Nat)
    (pk : MirPubkey) (eph_seed : List Nat) : MirCiphertext × List Nat :=
  let r := gen_secret_from_seed xof eph_seed
  let A := gen_matrix_a xof pk.seed
  let st := encapsLoopT (fun j => encapsV pk.b r j) N
  ({ u := fun t => encapsU A r (t / N) (t % N), mask := st.1, cnt := st.2.2 % 65536 },
   hash (DOM_HASH :: st.2.1.take st.2.2))

/-- The mask-filtered harvest loop of `decaps` after `idx` iterations:
state is `(buf, widx)`. -/
def decapsLoopT (mask : List Nat) (vp : Nat → Nat) : Nat → List Nat × Nat
  | 0 => (List.replicate N 0, 0)
  | idx + 1 =>
    let st := decapsLoopT mask vp idx
    (st.1.set st.2 (sel_u8 (vp idx >>> 6 &&& 1) (st.1.getD st.2 0) (bit_get mask idx)),
     st.2 + bit_get mask idx)

/-- Source `decaps`: recompute `v_prime` under the vault closure, harvest the bits
selected by the received mask, and hash the scratch prefix. -/
def decaps (hash : List Nat → List Nat) (ct : MirCiphertext)
    (vault : MirSecretVault) : List Nat :=
  let v_prime := vault.access fun s => fun j => decapsV ct.u s j
  let st := decapsLoopT ct.mask v_prime N
  hash (DOM_HASH :: st.1.take st.2)

/-- Checked variant of the `encaps` loop: every array access of the source
(`mask[idx >> 3]`, `buf[widx]`) is a bounds-checked read returning `none`
when out of range, matching a Rust index panic. -/
def encapsLoopC (v : Nat → Nat) : Nat → Option (List Nat × List Nat × Nat)
  | 0 => some (List.replicate (N / 8) 0, List.replicate N 0, 0)
  | idx + 1 =>
    (encapsLoopC v idx).bind fun st =>
      (st.1[idx >>> 3]?).bind fun mb =>
        (st.2.1[st.2.2]?).bind fun cur =>
          some (st.1.set (idx >>> 3) (mb ||| safe_zone (v idx) <<< (idx &&& 7)),
                st.2.1.set st.2.2 (sel_u8 (v idx >>> 6 &&& 1) cur (safe_zone (v idx))),
                st.2.2 + safe_zone (v idx))

/-- Checked variant of the `decaps` loop. -/
def decapsLoopC (mask : List Nat) (vp : Nat → Nat) : Nat → Option (List Nat × Nat)
  | 0 => some (List.replicate N 0, 0)
  | idx + 1 =>
    (decapsLoopC mask vp idx).bind fun st =>
      (mask[idx >>> 3]?).bind fun mb =>
        (st.1[st.2]?).bind fun cur =>
          some (st.1.set st.2 (sel_u8 (vp idx >>> 6 &&& 1) cur (mb >>> (idx &&& 7) &&& 1)),
                st.2 + (mb >>> (idx &&& 7) &&& 1))

/-- Variant of `encaps` with checked indexing, including the final `&buf[..widx]` slice. -/
def encapsC (xof : Nat → List Nat → Nat → Nat) (hash : List Nat → List Nat)
    (pk : MirPubkey) (eph_seed : List Nat) : Option (MirCiphertext × List Nat) :=
  let r := gen_secret_from_seed xof eph_seed
  let A := gen_matrix_a xof pk.seed
  (encapsLoopC (fun j => encapsV pk.b r j) N).bind fun st =>
    if st.2.2 ≤ st.2.1.length then
      some ({ u := fun t => encapsU A r (t / N) (t % N), mask := st.1,
              cnt := st.2.2 % 65536 },
            hash (DOM_HASH :: st.2.1.take st.2.2))
    else none

/-- Variant of `decaps` with checked indexing, including the final `&buf[..widx]` slice. -/
def decapsC (hash : List Nat → List Nat) (ct : MirCiphertext)
    (vault : MirSecretVault) : Option (List Nat) :=
  let v_prime := vault.access fun s => fun j => decapsV ct.u s j
  (decapsLoopC ct.mask v_prime N).bind fun st =>
    if st.2 ≤ st.1.length then some (hash (DOM_HASH :: st.1.take st.2)) else none

/-- Builds the list of the first `n` values of a fallible per-index
computation, propagating any failure (a panicking index access). -/
def mapRangeC {α : Type _} (f : Nat → Option α) : Nat → Option (List α)
  | 0 => some []
  | n + 1 => (mapRangeC f n).bind fun l => (f n).map fun a => l ++ [a]

/-- The squeezed XOF buffer of the source (`vec![0u8; len]` filled by
`mir_shake_xof`), as a byte list. -/
def xofBuf (xof : Nat → List Nat → Nat → Nat) (domain : Nat) (seed : List Nat)
    (len : Nat) : List Nat :=
  (List.range len).map (xof domain seed)

/-- Variant of `gen_secret_from_seed` with checked indexing: the conversion
loop reads `buf[i]` of the `len`-byte buffer for each output coefficient. -/
def gen_secret_from_seedC (xof : Nat → List Nat → Nat → Nat) (seed : List Nat)
    (len : Nat) : Option (List Int) :=
  mapRangeC (fun i => ((xofBuf xof DOM_SECRET seed len)[i]?).map ternary) len

/-- Variant of `gen_matrix_a` with checked indexing: coefficient `i` reads
`buf[2i]` and `buf[2i+1]` of the `2*K*K*N`-byte buffer. -/
def gen_matrix_aC (xof : Nat → List Nat → Nat → Nat) (seed : List Nat) :
    Option (List Int) :=
  mapRangeC (fun i =>
    ((xofBuf xof DOM_MATRIX seed (2 * (K * K * N)))[2 * i]?).bind fun b0 =>
      ((xofBuf xof DOM_MATRIX seed (2 * (K * K * N)))[2 * i + 1]?).map fun b1 =>
        (((b0 + 256 * b1) &&& Q_MASK : Nat) : Int)) (K * K * N)

/-- The inner accumulation of the `keygen` b-loop with checked reads
`matrix_a[i*K*N + l*N + j]` and `s_temp[l*N + j]`. -/
def keygenAccC (A s : List Int) (i j : Nat) : Nat → Option Nat
  | 0 => some 0
  | l + 1 =>
    (keygenAccC A s i j l).bind fun acc =>
      (A[i * K * N + l * N + j]?).bind fun a =>
        (s[l * N + j]?).map fun sv =>
          add32 acc (mul32 (wrap32 a) (wrap32 sv))

/-- The `keygen` b-loop with checked indexing, including the checked write
`pk.b[i*N + j]` into the `K*N`-byte array, enumerated by flat index `t`
(with `i = t / N`, `j = t % N` running through the source's nested loops). -/
def keygenBC (A s : List Int) : Option (List Nat) :=
  mapRangeC (fun t =>
    if t / N * N + t % N < K * N then
      (keygenAccC A s (t / N) (t % N) K).map fun acc => (acc &&& Q_MASK) >>> SHIFT
    else none) (K * N)

/-- Variant of `keygen` with checked indexing in both expanders and in the
b-loop, returning the public seed, the `b` bytes and the secret vector. -/
def keygenC (xof : Nat → List Nat → Nat → Nat) (master_seed : List Nat) :
    Option (List Nat × List Nat × List Int) :=
  (gen_secret_from_seedC xof (master_seed.drop SEED_LEN) (K * N)).bind fun s_temp =>
    (gen_matrix_aC xof (master_seed.take SEED_LEN)).bind fun A =>
      (keygenBC A s_temp).map fun b => (master_seed.take SEED_LEN, b, s_temp)

/-- Population count of a byte list: total number of set bits (each byte
contributes its bits 0 through 7). -/
def popcount (m : List Nat) : Nat :=
  (m.map fun b => ∑ t ∈ Finset.range 8, (b >>> t &&& 1)).sum

/-- C3: the `keygen` and `encaps` loops compute exactly the masked, shifted
wrapped sums claimed by the spec, with the transposed first matrix index in
`encaps`; and the public-key and ciphertext bytes at flat index `i*N + j`
are those formulas applied to the expanded matrix and secret. -/
theorem spec_C3 (A s r : Nat → Int) (xof : Nat → List Nat → Nat → Nat)
    (hash : List Nat → List Nat) (master eph : List Nat) (pk : MirPubkey)
    (i j : Nat) (hi : i < K) (hj : j < N) :
    keygenB A s i j = keygenBSpec A s i j ∧
    encapsU A r i j = encapsUSpec A r i j ∧
    (keygen xof master).1.b (i * N + j)
      = keygenBSpec (gen_matrix_a xof (master.take SEED_LEN))
          (gen_secret_from_seed xof (master.drop SEED_LEN)) i j ∧
    (encaps xof hash pk eph).1.u (i * N + j)
      = encapsUSpec (gen_matrix_a xof pk.seed) (gen_secret_from_seed xof eph) i j := by
  have hdiv : (i * N + j) / N = i := by
    rw [show N = 256 from rfl] at hj ⊢
    omega
  have hmod : (i * N + j) % N = j := by
    rw [show N = 256 from rfl] at hj ⊢
    omega
  refine ⟨keygenB_spec_eq A s i j, encapsU_spec_eq A r i j, ?_, ?_⟩
  · show keygenB _ _ ((i * N + j) / N) ((i * N + j) % N) = _
    rw [hdiv, hmod]
    exact keygenB_spec_eq _ _ i j
  · show encapsU _ _ ((i * N + j) / N) ((i * N + j) % N) = _
    rw [hdiv, hmod]
    exact encapsU_spec_eq _ _ i j

theorem spec_C3_witness :
    (1 : Nat) < K ∧ (2 : Nat) < N ∧
    keygenB (fun _ => 0) (fun _ => 0) 1 2 = keygenBSpec (fun _ => 0) (fun _ => 0) 1 2 :=
  ⟨by decide, by decide,
    (spec_C3 (fun _ => 0) (fun _ => 0) (fun _ => 0) (fun _ _ _ => 0) (fun _ => [])
      [] [] ⟨[], fun _ => 0⟩ 1 2 (by decide) (by decide)).1⟩

/-- C8: `decaps` never consults the ciphertext field `cnt` — two ciphertexts
agreeing on `u` and `mask` but with arbitrary `cnt` values decapsulate to
the same shared key under the same vault. -/
theorem spec_C8 (hash : List Nat → List Nat) (u : Nat → Nat) (mask : List Nat)
    (cnt cnt' : Nat) (vault : MirSecretVault) :
    decaps hash ⟨u, mask, cnt⟩ vault = decaps hash ⟨u, mask, cnt'⟩ vault := rfl

/-- C9: the expanders are pure functions of the seed and the (explicitly
passed) SHAKE stream: equal seeds give identical coefficient sequences. -/
theorem spec_C9 (xof : Nat → List Nat → Nat → Nat) (seed seed' : List Nat)
    (h : seed = seed') :
    (∀ i, gen_matrix_a xof seed i = gen_matrix_a xof seed' i) ∧
    (∀ i, gen_secret_from_seed xof seed i = gen_secret_from_seed xof seed' i) := by
  subst h
  exact ⟨fun _ => rfl, fun _ => rfl⟩

theorem spec_C9_witness :
    ([0] : List Nat) = ([0] : List Nat) ∧
    gen_matrix_a (fun _ _ _ => 0) [0] 0 = gen_matrix_a (fun _ _ _ => 0) [0] 0 :=
  ⟨rfl, (spec_C9 (fun _ _ _ => 0) [0] [0] rfl).1 0⟩

/- Bit-level helper lemmas for the reconciliation loops. -/

theorem sub32_lt (a b : Nat) : sub32 a b < 4294967296 := by
  unfold sub32
  exact Nat.mod_lt _ (by decide)

theorem lt32_le_one (a b : Nat) : lt32 a b ≤ 1 := by
  unfold lt32
  have h := sub32_lt a b
  rw [Nat.shiftRight_eq_div_pow, show (2:Nat) ^ 31 = 2147483648 from by norm_num]
  omega

theorem safe_zone_le_one (v : Nat) : safe_zone v ≤ 1 := lt32_le_one _ _

theorem bit_get_le_one (m : List Nat) (i : Nat) : bit_get m i ≤ 1 :=
  Nat.and_le_right

theorem shiftRight_three (i : Nat) : i >>> 3 = i / 8 := by
  rw [Nat.shiftRight_eq_div_pow]

theorem and_seven (i : Nat) : i &&& 7 = i % 8 := by
  rw [show (7 : Nat) = 2 ^ 3 - 1 from rfl, Nat.and_pow_two_sub_one_eq_mod]

theorem getD_set_self (l : List Nat) (k a : Nat) (h : k < l.length) :
    (l.set k a).getD k 0 = a := by
  simp [List.getD_eq_getElem?_getD, List.getElem?_set_self h]

theorem getD_set_ne (l : List Nat) (k k' a : Nat) (h : k ≠ k') :
    (l.set k a).getD k' 0 = l.getD k' 0 := by
  simp [List.getD_eq_getElem?_getD, List.getElem?_set_ne h]

theorem getD_replicate_zero (n k : Nat) : (List.replicate n (0 : Nat)).getD k 0 = 0 := by
  rw [List.getD_eq_getElem?_getD, List.getElem?_replicate]
  split <;> rfl

theorem bit_get_testBit (m : List Nat) (i : Nat) :
    bit_get m i = (Nat.testBit (m.getD (i >>> 3) 0) (i &&& 7)).toNat := by
  unfold bit_get
  rw [Nat.testBit_to_div_mod, Nat.shiftRight_eq_div_pow, Nat.and_one_is_mod]
  rcases Nat.mod_two_eq_zero_or_one (m.getD (i >>> 3) 0 / 2 ^ (i &&& 7)) with h | h <;>
    rw [h] <;> decide

theorem testBit_or_shift_self (b v s : Nat) :
    Nat.testBit (b ||| v <<< s) s = (Nat.testBit b s || Nat.testBit v 0) := by
  rw [Nat.testBit_or, Nat.testBit_shiftLeft]
  simp

theorem testBit_or_shift_ne (b v s t : Nat) (hv : v ≤ 1) (hst : s ≠ t) :
    Nat.testBit (b ||| v <<< s) t = Nat.testBit b t := by
  rw [Nat.testBit_or, Nat.testBit_shiftLeft]
  rcases Nat.lt_or_ge t s with h | h
  · simp [Nat.not_le.mpr h]
  · have hv2 : v < 2 ^ (t - s) :=
      lt_of_le_of_lt hv (Nat.one_lt_two_pow (by omega))
    rw [Nat.testBit_lt_two_pow hv2]
    simp

theorem bit_get_bit_set_other (m : List Nat) (i j v : Nat) (hv : v ≤ 1)
    (hij : j ≠ i) : bit_get (bit_set m i v) j = bit_get m j := by
  unfold bit_set
  by_cases hbyte : i >>> 3 = j >>> 3
  · by_cases hlen : i >>> 3 < m.length
    · have hne : i &&& 7 ≠ j &&& 7 := by
        rw [and_seven, and_seven]
        rw [shiftRight_three, shiftRight_three] at hbyte
        omega
      rw [bit_get_testBit, bit_get_testBit, ← hbyte, getD_set_self m _ _ hlen,
        testBit_or_shift_ne _ _ _ _ hv hne]
    · rw [List.set_eq_of_length_le (by omega)]
  · rw [bit_get_testBit, bit_get_testBit, getD_set_ne m _ _ _ hbyte]

theorem bit_get_bit_set_self (m : List Nat) (i v : Nat) (hv : v ≤ 1)
    (hlen : i >>> 3 < m.length) (h0 : bit_get m i = 0) :
    bit_get (bit_set m i v) i = v := by
  unfold bit_set
  rw [bit_get_testBit, getD_set_self m _ _ hlen, testBit_or_shift_self]
  rw [bit_get_testBit] at h0
  have hf : Nat.testBit (m.getD (i >>> 3) 0) (i &&& 7) = false := by
    cases hx : Nat.testBit (m.getD (i >>> 3) 0) (i &&& 7)
    · rfl
    · rw [hx] at h0
      simp at h0
  rw [hf]
  have hv01 : v = 0 ∨ v = 1 := by omega
  rcases hv01 with rfl | rfl <;> decide

theorem bit_get_replicate_zero (n i : Nat) :
    bit_get (List.replicate n (0 : Nat)) i = 0 := by
  unfold bit_get
  rw [getD_replicate_zero]
  simp

theorem getD_eq_getElem (l : List Nat) (k : Nat) (h : k < l.length) :
    l.getD k 0 = l[k] := by
  rw [List.getD_eq_getElem?_getD, List.getElem?_eq_getElem h]
  rfl

/- Invariants of the safe-zone selection loop of `encaps`. -/

theorem encapsLoopT_inv (v : Nat → Nat) :
    ∀ n, n ≤ N →
      (encapsLoopT v n).1.length = N / 8 ∧
      (encapsLoopT v n).2.1.length = N ∧
      (encapsLoopT v n).2.2 ≤ n ∧
      (encapsLoopT v n).2.2 = ∑ j ∈ Finset.range n, safe_zone (v j) ∧
      (∀ j, j < N → bit_get (encapsLoopT v n).1 j
          = if j < n then safe_zone (v j) else 0) := by
  intro n
  induction n with
  | zero =>
    intro _
    refine ⟨by simp [encapsLoopT], by simp [encapsLoopT], le_refl _, by
      simp [encapsLoopT], ?_⟩
    intro j _
    simp [encapsLoopT, bit_get_replicate_zero]
  | succ n ih =>
    intro hn
    obtain ⟨ihm, ihb, ihw, ihs, ihbits⟩ := ih (by omega)
    have hsafe := safe_zone_le_one (v n)
    have hN : N = 256 := rfl
    simp only [encapsLoopT]
    refine ⟨by simp [bit_set, ihm], by simp [ihb], by omega, by
      rw [Finset.sum_range_succ, ← ihs], ?_⟩
    intro j hj
    by_cases hjn : j = n
    · subst hjn
      have hlen : j >>> 3 < (encapsLoopT v j).1.length := by
        rw [shiftRight_three, ihm, show N / 8 = 32 from rfl]
        rw [hN] at hj
        omega
      have h0 : bit_get (encapsLoopT v j).1 j = 0 := by
        have h := ihbits j hj
        simpa using h
      rw [bit_get_bit_set_self _ _ _ hsafe hlen h0]
      simp
    · rw [bit_get_bit_set_other _ _ _ _ hsafe hjn, ihbits j hj]
      by_cases hlt : j < n
      · simp [hlt, show j < n + 1 from by omega]
      · simp [hlt, show ¬j < n + 1 from by omega]

/- Invariants of the mask-filtered harvest loop of `decaps`. -/

theorem decapsLoopT_inv (mask : List Nat) (vp : Nat → Nat) :
    ∀ n, n ≤ N →
      (decapsLoopT mask vp n).1.length = N ∧
      (decapsLoopT mask vp n).2 ≤ n ∧
      (decapsLoopT mask vp n).2 = ∑ j ∈ Finset.range n, bit_get mask j := by
  intro n
  induction n with
  | zero =>
    intro _
    exact ⟨by simp [decapsLoopT], le_refl _, by simp [decapsLoopT]⟩
  | succ n ih =>
    intro hn
    obtain ⟨ihb, ihw, ihs⟩ := ih (by omega)
    have hsel := bit_get_le_one mask n
    simp only [decapsLoopT]
    exact ⟨by simp [ihb], by omega, by rw [Finset.sum_range_succ, ← ihs]⟩

/- The checked loops succeed and agree with the total loops. -/

theorem encapsLoopC_eq (v : Nat → Nat) :
    ∀ n, n ≤ N → encapsLoopC v n = some (encapsLoopT v n) := by
  intro n
  induction n with
  | zero => intro _; rfl
  | succ n ih =>
    intro hn
    obtain ⟨ihm, ihb, ihw, _, _⟩ := encapsLoopT_inv v n (by omega)
    have hN : N = 256 := rfl
    have h1 : n >>> 3 < (encapsLoopT v n).1.length := by
      rw [shiftRight_three, ihm, show N / 8 = 32 from rfl]
      omega
    have h2 : (encapsLoopT v n).2.2 < (encapsLoopT v n).2.1.length := by
      rw [ihb, hN]
      omega
    simp only [encapsLoopC, ih (by omega), Option.bind_eq_bind, Option.some_bind,
      List.getElem?_eq_getElem h1, List.getElem?_eq_getElem h2]
    simp only [encapsLoopT, bit_set]
    rw [getD_eq_getElem _ _ h1, getD_eq_getElem _ _ h2]

theorem decapsLoopC_eq (mask : List Nat) (vp : Nat → Nat) (hm : mask.length = N / 8) :
    ∀ n, n ≤ N → decapsLoopC mask vp n = some (decapsLoopT mask vp n) := by
  intro n
  induction n with
  | zero => intro _; rfl
  | succ n ih =>
    intro hn
    obtain ⟨ihb, ihw, _⟩ := decapsLoopT_inv mask vp n (by omega)
    have hN : N = 256 := rfl
    have h1 : n >>> 3 < mask.length := by
      rw [shiftRight_three, hm, show N / 8 = 32 from rfl]
      omega
    have h2 : (decapsLoopT mask vp n).2 < (decapsLoopT mask vp n).1.length := by
      rw [ihb, hN]
      omega
    simp only [decapsLoopC, ih (by omega), Option.bind_eq_bind, Option.some_bind,
      List.getElem?_eq_getElem h1, List.getElem?_eq_getElem h2]
    simp only [decapsLoopT, bit_get]
    rw [getD_eq_getElem _ _ h1, getD_eq_getElem _ _ h2]

/- Population count, expressed bit by bit. -/

theorem map_sum_getD (m : List Nat) (f : Nat → Nat) :
    (m.map f).sum = ∑ k ∈ Finset.range m.length, f (m.getD k 0) := by
  induction m with
  | nil => simp
  | cons a l ih =>
    simp only [List.map_cons, List.sum_cons, List.length_cons, ih]
    rw [Finset.sum_range_succ']
    simp [Nat.add_comm]

theorem sum_range_eight_mul (L : Nat) (g : Nat → Nat) :
    ∑ j ∈ Finset.range (8 * L), g j
      = ∑ k ∈ Finset.range L, ∑ t ∈ Finset.range 8, g (8 * k + t) := by
  induction L with
  | zero => simp
  | succ L ih =>
    rw [Finset.sum_range_succ, ← ih, show 8 * (L + 1) = 8 * L + 8 from by ring,
      Finset.sum_range_add]

theorem bit_get_eight (m : List Nat) (k t : Nat) (ht : t < 8) :
    bit_get m (8 * k + t) = m.getD k 0 >>> t &&& 1 := by
  unfold bit_get
  rw [shiftRight_three, and_seven, show (8 * k + t) / 8 = k from by omega,
    show (8 * k + t) % 8 = t from by omega]

theorem popcount_eq_sum_bit_get (m : List Nat) (hm : m.length = 32) :
    popcount m = ∑ j ∈ Finset.range 256, bit_get m j := by
  unfold popcount
  rw [map_sum_getD, hm, show (256 : Nat) = 8 * 32 from rfl, sum_range_eight_mul]
  refine Finset.sum_congr rfl fun k hk => ?_
  simp only [Finset.sum_range_succ, Finset.sum_range_zero]
  rw [bit_get_eight m k 0 (by omega), bit_get_eight m k 1 (by omega),
    bit_get_eight m k 2 (by omega), bit_get_eight m k 3 (by omega),
    bit_get_eight m k 4 (by omega), bit_get_eight m k 5 (by omega),
    bit_get_eight m k 6 (by omega), bit_get_eight m k 7 (by omega)]

/-- C4: every ciphertext produced by `encaps` satisfies
`cnt = popcount(mask)` and `cnt ≤ N`. -/
theorem spec_C4 (xof : Nat → List Nat → Nat → Nat) (hash : List Nat → List Nat)
    (pk : MirPubkey) (eph : List Nat) :
    (encaps xof hash pk eph).1.cnt = popcount (encaps xof hash pk eph).1.mask ∧
    (encaps xof hash pk eph).1.cnt ≤ N := by
  obtain ⟨ihm, ihb, ihw, ihs, ihbits⟩ :=
    encapsLoopT_inv (fun j => encapsV pk.b (gen_secret_from_seed xof eph) j) N
      (le_refl N)
  simp only [encaps]
  rw [Nat.mod_eq_of_lt (lt_of_le_of_lt ihw (by decide))]
  constructor
  · rw [popcount_eq_sum_bit_get _ (by rw [ihm]; rfl), ihs]
    refine Finset.sum_congr rfl fun j hj => ?_
    have hj' : j < N := Finset.mem_range.mp hj
    rw [ihbits j hj', if_pos hj']
  · exact ihw

/- The checked `keygen` succeeds on every master seed and agrees with the
total embedding on the allocated index ranges. -/

theorem mapRangeC_eq {α : Type _} (f : Nat → Option α) (g : Nat → α) :
    ∀ n, (∀ i, i < n → f i = some (g i)) →
      mapRangeC f n = some ((List.range n).map g) := by
  intro n
  induction n with
  | zero => intro _; rfl
  | succ n ih =>
    intro h
    rw [mapRangeC, ih (fun i hi => h i (by omega)), Option.some_bind,
      h n (by omega), Option.map_some', List.range_succ, List.map_append]
    rfl

theorem getElem?_range_map {α : Type _} (f : Nat → α) {n k : Nat} (h : k < n) :
    ((List.range n).map f)[k]? = some (f k) := by
  rw [List.getElem?_map, List.getElem?_range h, Option.map_some']

theorem gen_secret_from_seedC_eq (xof : Nat → List Nat → Nat → Nat)
    (seed : List Nat) (len : Nat) :
    gen_secret_from_seedC xof seed len
      = some ((List.range len).map (gen_secret_from_seed xof seed)) := by
  apply mapRangeC_eq
  intro i hi
  unfold xofBuf
  rw [getElem?_range_map _ hi, Option.map_some']
  rfl

theorem gen_matrix_aC_eq (xof : Nat → List Nat → Nat → Nat) (seed : List Nat) :
    gen_matrix_aC xof seed
      = some ((List.range (K * K * N)).map (gen_matrix_a xof seed)) := by
  apply mapRangeC_eq
  intro i hi
  unfold xofBuf
  rw [getElem?_range_map _ (show 2 * i < 2 * (K * K * N) from by omega),
    Option.some_bind,
    getElem?_range_map _ (show 2 * i + 1 < 2 * (K * K * N) from by omega),
    Option.map_some']
  rfl

theorem keygenAccC_eq (Af sf : Nat → Int) (i j : Nat) (hi : i < K) (hj : j < N) :
    ∀ l, l ≤ K →
      keygenAccC ((List.range (K * K * N)).map Af) ((List.range (K * N)).map sf) i j l
        = some (accW32 (fun l2 =>
            mul32 (wrap32 (Af (i * K * N + l2 * N + j)))
              (wrap32 (sf (l2 * N + j)))) l) := by
  intro l
  induction l with
  | zero => intro _; rfl
  | succ l ih =>
    intro hl
    have hK : K = 5 := rfl
    have hN : N = 256 := rfl
    have ha : i * K * N + l * N + j < K * K * N := by
      rw [hK] at hi hl
      rw [hN] at hj
      rw [hK, hN]
      omega
    have hs2 : l * N + j < K * N := by
      rw [hK] at hl
      rw [hN] at hj
      rw [hK, hN]
      omega
    rw [keygenAccC, ih (by omega), Option.some_bind, getElem?_range_map Af ha,
      Option.some_bind, getElem?_range_map sf hs2, Option.map_some']
    rfl

theorem keygenBC_eq (Af sf : Nat → Int) :
    keygenBC ((List.range (K * K * N)).map Af) ((List.range (K * N)).map sf)
      = some ((List.range (K * N)).map fun t => keygenB Af sf (t / N) (t % N)) := by
  apply mapRangeC_eq
  intro t ht
  have hK : K = 5 := rfl
  have hN : N = 256 := rfl
  have hcond : t / N * N + t % N < K * N := by
    rw [hK, hN] at ht ⊢
    omega
  rw [if_pos hcond,
    keygenAccC_eq Af sf (t / N) (t % N)
      (by rw [hK, hN] at ht ⊢; omega) (by rw [hN]; omega) K (le_refl K),
    Option.map_some']
  rfl

theorem keygenC_eq (xof : Nat → List Nat → Nat → Nat) (master : List Nat) :
    keygenC xof master = some
      ( (keygen xof master).1.seed,
        (List.range (K * N)).map (keygen xof master).1.b,
        (List.range (K * N)).map (keygen xof master).2.secret_s ) := by
  unfold keygenC
  rw [gen_secret_from_seedC_eq, Option.some_bind, gen_matrix_aC_eq,
    Option.some_bind, keygenBC_eq, Option.map_some']
  rfl

theorem bind_if_some {α β : Type _} (o : Option α) (a : α) (p : α → Prop)
    (inst : (x : α) → Decidable (p x)) (f : α → β) (h : o = some a) (hp : p a) :
    (o.bind fun x => @ite _ (p x) (inst x) (some (f x)) none) = some (f a) := by
  subst h
  rw [Option.some_bind]
  show @ite _ (p a) (inst a) (some (f a)) none = some (f a)
  exact if_pos hp

set_option maxRecDepth 8192 in
/-- C6: with every array access bounds-checked, `keygen`, `encaps` and
`decaps` complete successfully on all inputs — the expander buffer reads,
the b-loop reads of `matrix_a` and `s_temp` and its write into `pk.b`, the
scratch write `buf[widx]` and the mask reads all stay in bounds, also for
arbitrary ciphertexts — the checked `keygen` agrees with the total
embedding on the allocated ranges, and `decaps` returns a 32-byte shared
key. -/
theorem spec_C6 (xof : Nat → List Nat → Nat → Nat) (hash : List Nat → List Nat)
    (master : List Nat) (pk : MirPubkey) (eph : List Nat) (ct : MirCiphertext)
    (vault : MirSecretVault)
    (hmask : ct.mask.length = N / 8) (hhash : ∀ x, (hash x).length = SHARED_LEN) :
    keygenC xof master = some
      ( (keygen xof master).1.seed,
        (List.range (K * N)).map (keygen xof master).1.b,
        (List.range (K * N)).map (keygen xof master).2.secret_s ) ∧
    encapsC xof hash pk eph = some (encaps xof hash pk eph) ∧
    decapsC hash ct vault = some (decaps hash ct vault) ∧
    (decaps hash ct vault).length = SHARED_LEN := by
  refine ⟨keygenC_eq xof master, ?_, ?_, hhash _⟩
  · obtain ⟨_, ihb, ihw, _, _⟩ :=
      encapsLoopT_inv (fun j => encapsV pk.b (gen_secret_from_seed xof eph) j) N
        (le_refl N)
    have hC := encapsLoopC_eq (fun j => encapsV pk.b (gen_secret_from_seed xof eph) j)
      N (le_refl N)
    exact bind_if_some _ _ _ _ _ hC (le_of_le_of_eq ihw ihb.symm)
  · obtain ⟨ihb, ihw, _⟩ :=
      decapsLoopT_inv ct.mask
        (vault.access fun s => fun j => decapsV ct.u s j) N (le_refl N)
    have hD := decapsLoopC_eq ct.mask
      (vault.access fun s => fun j => decapsV ct.u s j) hmask N (le_refl N)
    exact bind_if_some _ _ _ _ _ hD (le_of_le_of_eq ihw ihb.symm)

theorem spec_C6_witness :
    decapsC (fun _ => List.replicate 32 0)
        ⟨fun _ => 0, List.replicate 32 0, 0⟩ ⟨fun _ => 0⟩
      = some (decaps (fun _ => List.replicate 32 0)
          ⟨fun _ => 0, List.replicate 32 0, 0⟩ ⟨fun _ => 0⟩) :=
  (spec_C6 (fun _ _ _ => 0) (fun _ => List.replicate 32 0) [] ⟨[], fun _ => 0⟩ []
    ⟨fun _ => 0, List.replicate 32 0, 0⟩ ⟨fun _ => 0⟩ rfl (fun _ => rfl)).2.2.1

/- The two reconciliation loops assemble identical scratch states whenever
the harvested bits agree on the selected coordinates. -/

theorem mul32_zero_left (x : Nat) : mul32 0 x = 0 := by
  unfold mul32
  simp

theorem mul32_zero_right (x : Nat) : mul32 x 0 = 0 := by
  unfold mul32
  simp

theorem accW32_zero_fun (f : Nat → Nat) (hz : ∀ l, f l = 0) :
    ∀ n, accW32 f n = 0 := by
  intro n
  induction n with
  | zero => rfl
  | succ n ih =>
    rw [accW32, ih, hz]
    rfl

theorem sel_u8_zero (a b : Nat) : sel_u8 a b 0 = b &&& 255 := by
  unfold sel_u8
  norm_num

theorem sel_u8_one (a b : Nat) : sel_u8 a b 1 = a &&& 255 := by
  unfold sel_u8
  norm_num

theorem loop_pair (v vp : Nat → Nat) (mask : List Nat)
    (Hm : ∀ j, j < N → bit_get mask j = safe_zone (v j))
    (Hb : ∀ j, j < N → bit_get mask j = 1 →
      v j >>> 6 &&& 1 = vp j >>> 6 &&& 1) :
    ∀ n, n ≤ N → decapsLoopT mask vp n = (encapsLoopT v n).2 := by
  intro n
  induction n with
  | zero => intro _; rfl
  | succ n ih =>
    intro hn
    have ihp := ih (by omega)
    have hsel : bit_get mask n = safe_zone (v n) := Hm n (by omega)
    have hsz := safe_zone_le_one (v n)
    simp only [decapsLoopT, encapsLoopT, ihp, hsel]
    by_cases hs : safe_zone (v n) = 0
    · rw [hs, sel_u8_zero, sel_u8_zero]
    · have hs1 : safe_zone (v n) = 1 := by omega
      have hbit := Hb n (by omega) (by rw [hsel, hs1])
      rw [hbit]

/-- C7: if for every coordinate selected by the mask the bit extracted by
the encapsulator agrees with the bit extracted by the decapsulator, both
sides assemble identical scratch buffers and hash them under the same
domain tag, so the two shared keys are equal. -/
theorem spec_C7 (xof : Nat → List Nat → Nat → Nat) (hash : List Nat → List Nat)
    (pk : MirPubkey) (eph : List Nat) (vault : MirSecretVault)
    (hagree : ∀ j, j < N →
      bit_get (encaps xof hash pk eph).1.mask j = 1 →
      encapsV pk.b (gen_secret_from_seed xof eph) j >>> 6 &&& 1
        = decapsV (encaps xof hash pk eph).1.u vault.secret_s j >>> 6 &&& 1) :
    decaps hash (encaps xof hash pk eph).1 vault = (encaps xof hash pk eph).2 := by
  obtain ⟨ihm, ihb, ihw, ihs, ihbits⟩ :=
    encapsLoopT_inv (fun j => encapsV pk.b (gen_secret_from_seed xof eph) j) N
      (le_refl N)
  simp only [encaps] at hagree ⊢
  simp only [decaps, MirSecretVault.access]
  rw [loop_pair (fun j => encapsV pk.b (gen_secret_from_seed xof eph) j) _ _
    (fun j hj => by rw [ihbits j hj, if_pos (show j < N from hj)])
    (fun j hj hb => hagree j hj hb) N (le_refl N)]

theorem spec_C7_witness :
    decaps (fun _ => []) (encaps (fun _ _ _ => 0) (fun _ => []) ⟨[], fun _ => 0⟩ []).1
        ⟨fun _ => 0⟩
      = (encaps (fun _ _ _ => 0) (fun _ => []) ⟨[], fun _ => 0⟩ []).2 :=
  spec_C7 (fun _ _ _ => 0) (fun _ => []) ⟨[], fun _ => 0⟩ [] ⟨fun _ => 0⟩
    (fun j hj hb => by
      have hL : encapsV (MirPubkey.mk [] fun _ => 0).b
          (gen_secret_from_seed (fun _ _ _ => 0) []) j = 0 := by
        unfold encapsV
        rw [accW32_zero_fun _
          (fun l => by
            show mul32 0
              (wrap32 (gen_secret_from_seed (fun _ _ _ => 0) [] (l * N + j))) = 0
            exact mul32_zero_left _) K]
        decide
      have hR : decapsV
          (encaps (fun _ _ _ => 0) (fun _ => []) ⟨[], fun _ => 0⟩ []).1.u
          (MirSecretVault.mk fun _ => 0).secret_s j = 0 := by
        unfold decapsV
        rw [accW32_zero_fun _
          (fun l => by
            show mul32
              (wrap32 ((((encaps (fun _ _ _ => 0) (fun _ => [])
                ⟨[], fun _ => 0⟩ []).1.u (l * N + j) : Nat) : Int))) 0 = 0
            exact mul32_zero_right _) K]
        decide
      rw [hL, hR])

end Mirletis
